import Mathlib

/-!
Verification of the ZeroXBridge sequencer against its specification.

The definitions below are shallow embeddings of the Rust source:
machine integers become `Nat` with explicit masking, byte strings become
`List Nat` (each element a byte value), fallible code returns `Option`,
and stateful database code becomes explicit state passing.
-/

namespace ZeroXBridge

/-! ## Keccak-256 (as used by the sha3 crate's `Keccak256`)

Faithful implementation of the Keccak-f[1600] permutation and the
original Keccak padding (0x01 domain byte), rate 136 bytes.
The state is a list of 25 lanes; lane (x, y) sits at index x + 5 * y.
-/

def mask64 : Nat := 2 ^ 64 - 1

def rotl64 (x r : Nat) : Nat := ((x <<< r) ||| (x >>> (64 - r))) &&& mask64

def not64 (x : Nat) : Nat := x ^^^ mask64

def lane (s : List Nat) (x y : Nat) : Nat := s.getD (x + 5 * y) 0

def thetaC (s : List Nat) (x : Nat) : Nat :=
  lane s x 0 ^^^ lane s x 1 ^^^ lane s x 2 ^^^ lane s x 3 ^^^ lane s x 4

def theta (s : List Nat) : List Nat :=
  (List.range 25).map (fun i =>
    s.getD i 0 ^^^ (thetaC s ((i % 5 + 4) % 5) ^^^ rotl64 (thetaC s ((i % 5 + 1) % 5)) 1))

def rhoOffsets : List Nat :=
  [0, 1, 62, 28, 27] ++ [36, 44, 6, 55, 20] ++ [3, 10, 43, 25, 39] ++
    [41, 45, 15, 21, 8] ++ [18, 2, 61, 56, 14]

def rhoPi (s : List Nat) : List Nat :=
  (List.range 25).map (fun j =>
    let bigX := j % 5
    let bigY := j / 5
    let x := (bigX + 3 * bigY) % 5
    let y := bigX
    rotl64 (lane s x y) (rhoOffsets.getD (x + 5 * y) 0))

def chi (s : List Nat) : List Nat :=
  (List.range 25).map (fun j =>
    let x := j % 5
    let y := j / 5
    lane s x y ^^^ (not64 (lane s ((x + 1) % 5) y) &&& lane s ((x + 2) % 5) y))

def roundConstants : List Nat :=
  [0x1, 0x8082, 0x800000000000808a, 0x8000000080008000] ++
    [0x808b, 0x80000001, 0x8000000080008081, 0x8000000000008009] ++
    [0x8a, 0x88, 0x80008009, 0x8000000a] ++
    [0x8000808b, 0x800000000000008b, 0x8000000000008089, 0x8000000000008003] ++
    [0x8000000000008002, 0x8000000000000080, 0x800a, 0x800000008000000a] ++
    [0x8000000080008081, 0x8000000000008080, 0x80000001, 0x8000000080008008]

def keccakRound (s : List Nat) (rc : Nat) : List Nat :=
  let t := chi (rhoPi (theta s))
  t.set 0 (t.getD 0 0 ^^^ rc)

def keccakF (s : List Nat) : List Nat := roundConstants.foldl keccakRound s

/-- Original Keccak pad10*1 with domain byte 0x01, rate 136 bytes. -/
def keccakPad (msg : List Nat) : List Nat :=
  let padLen := 136 - msg.length % 136
  if padLen = 1 then msg ++ [0x81]
  else msg ++ [0x01] ++ List.replicate (padLen - 2) 0 ++ [0x80]

/-- Interpret up to eight bytes as a little-endian 64-bit lane. -/
def bytesToLane (bs : List Nat) : Nat := bs.foldr (fun b acc => b + 256 * acc) 0

def absorbBlock (s : List Nat) (block : List Nat) : List Nat :=
  keccakF ((List.range 25).map (fun i =>
    s.getD i 0 ^^^ (if i < 17 then bytesToLane ((block.drop (8 * i)).take 8) else 0)))

def chunksAux : Nat → List Nat → List (List Nat)
  | 0, _ => []
  | _ + 1, [] => []
  | fuel + 1, l => l.take 136 :: chunksAux fuel (l.drop 136)

/-- Split a byte list into rate-sized blocks of 136 bytes. -/
def chunks136 (l : List Nat) : List (List Nat) := chunksAux l.length l

def laneToBytes (n : Nat) : List Nat := (List.range 8).map (fun i => (n >>> (8 * i)) &&& 255)

/-- Keccak-256 digest of a byte list, as a list of 32 bytes.  This embeds
`BurnData::keccak256` (the sha3 crate's `Keccak256`). -/
def keccak256 (msg : List Nat) : List Nat :=
  let s := (chunks136 (keccakPad msg)).foldl absorbBlock (List.replicate 25 0)
  laneToBytes (s.getD 0 0) ++ laneToBytes (s.getD 1 0) ++
  laneToBytes (s.getD 2 0) ++ laneToBytes (s.getD 3 0)

/-! ## Hex encoding and decoding helpers (the hex crate) -/

def hexDigitVal (c : Char) : Option Nat :=
  if '0' ≤ c ∧ c ≤ '9' then some (c.toNat - '0'.toNat)
  else if 'a' ≤ c ∧ c ≤ 'f' then some (c.toNat - 'a'.toNat + 10)
  else if 'A' ≤ c ∧ c ≤ 'F' then some (c.toNat - 'A'.toNat + 10)
  else none

/-- `hex::decode` on a list of characters: pairs of hex digits become bytes;
an odd length or a non-hex character is an error. -/
def hexDecodeChars : List Char → Option (List Nat)
  | [] => some []
  | [_] => none
  | c1 :: c2 :: rest =>
    match hexDigitVal c1, hexDigitVal c2, hexDecodeChars rest with
    | some h, some l, some bs => some ((16 * h + l) :: bs)
    | _, _, _ => none

def hexDigits : List Char := ("0123456789abcdef").data

def byteToHexChars (b : Nat) : List Char :=
  [hexDigits.getD (b / 16 % 16) '0', hexDigits.getD (b % 16) '0']

/-- `hex::encode`: lower-case hex rendering of a byte list. -/
def bytesToHexChars (bs : List Nat) : List Char := bs.flatMap byteToHexChars

/-- Drop a leading `0x`, if present (Rust `strip_prefix("0x")` with `unwrap_or`). -/
def drop0x (cs : List Char) : List Char :=
  match cs with
  | '0' :: 'x' :: rest => rest
  | _ => cs

/-! ## BurnData and its Keccak commitment (src/src/utils/hash.rs) -/

structure BurnData where
  caller : List Char
  amount : Nat
  nonce : Nat
  timeStamp : Nat

/-- `BurnData::hex_to_bytes32`: strip an optional `0x`, hex-decode, and
require exactly 32 bytes. -/
def hexToBytes32 (s : List Char) : Option (List Nat) :=
  match hexDecodeChars (drop0x s) with
  | some bs => if bs.length = 32 then some bs else none
  | none => none

/-- `BurnData::u64_to_u256_bytes`: a 64-bit value as 32 big-endian bytes
(24 zero bytes then the 8 value bytes, most significant first). -/
def u64ToU256Bytes (v : Nat) : List Nat :=
  List.replicate 24 0 ++ (List.range 8).map (fun i => (v >>> (8 * (7 - i))) &&& 255)

/-- `BurnData::encode_packed`: the 128-byte concatenation. -/
def encodePacked (stark : List Nat) (usdVal nonce timestamp : Nat) : List Nat :=
  stark ++ u64ToU256Bytes usdVal ++ u64ToU256Bytes nonce ++ u64ToU256Bytes timestamp

/-- `BurnData::compute_commitment_hash`; the source panics on an invalid
caller, modelled by `none`. -/
def computeCommitmentHash (d : BurnData) : Option (List Nat) :=
  match hexToBytes32 d.caller with
  | some callerHex => some (keccak256 (encodePacked callerHex d.amount d.nonce d.timeStamp))
  | none => none

/-- `BurnData::hash_to_hex_string`: `0x` followed by the lower-hex digest. -/
def hashToHexString (d : BurnData) : Option (List Char) :=
  match computeCommitmentHash d with
  | some h => some ('0' :: 'x' :: bytesToHexChars h)
  | none => none

/-- Spec-side padding, written from the spec's words: a value rendered as
32 big-endian bytes, zero-padded on the left. -/
def specPad32 (v : Nat) : List Nat :=
  (List.range 32).map (fun i => (v >>> (8 * (31 - i))) &&& 255)

/-! ## Stage-string encoding (src/src/relayer/proof_submission.rs)

`string_to_hex` renders the bytes of its input as `0x` plus two lower-case
hex digits per byte; `string_to_felt` feeds that rendering to the external
`Felt::from_hex` and unwraps.  Strings are modelled as their byte lists.
-/

/-- `ProofSubmissionRelayer::string_to_hex`. -/
def stringToHex (bytes : List Nat) : List Char :=
  '0' :: 'x' :: bytesToHexChars bytes

/-- The byte list of an ASCII string (Rust `str::bytes`). -/
def asciiBytes (s : String) : List Nat := s.data.map Char.toNat

def starkPrime : Nat := 2 ^ 251 + 17 * 2 ^ 192 + 1

def parseHexNat (cs : List Char) : Option Nat :=
  cs.foldl (fun acc c =>
    match acc, hexDigitVal c with
    | some a, some d => some (16 * a + d)
    | _, _ => none) (some 0)

/-- Modelled from the spec: `Felt::from_hex` of the external starknet
types crate, which is not part of this repository.  A hex numeral must
contain at least one hex digit after the optional `0x`; the value is a
field element of the Stark prime field. -/
def feltFromHex (s : List Char) : Option Nat :=
  match drop0x s with
  | [] => none
  | ds => (parseHexNat ds).map (· % starkPrime)

/-- `ProofSubmissionRelayer::string_to_felt`; the source unwraps the
`Felt::from_hex` result, so a parse failure (modelled `none`) panics. -/
def stringToFelt (bytes : List Nat) : Option Nat :=
  feltFromHex (stringToHex bytes)

/-! ## Commitment-hash normalization in the L1 fund-unlock relayer
(src/src/relayer/ethereum_relayer.rs, `send_unlock_funds_transaction`):
the decoded bytes are copied to the front of a zeroed 32-byte array,
taking at most 32 of them. -/

def normalizeCommitment32 (bs : List Nat) : List Nat :=
  bs.take 32 ++ List.replicate (32 - bs.length) 0

/-! ## Watcher block cursors

`update_last_processed_block` (src/src/db/database.rs) overwrites the
stored value unconditionally (ON CONFLICT DO UPDATE), so monotonicity is
a property of the callers.  Each watcher tick is modelled as a function
from the stored cursor and the RPC responses to the new stored cursor.
-/

/-- The start of the scanned range: stored cursor + 1, or the configured
start block when no cursor exists yet. -/
def startBlock (stored : Option Nat) (cfgFrom : Nat) : Nat :=
  match stored with
  | some c => c + 1
  | none => cfgFrom

/-- Cursor update of `fetch_l1_deposit_events`
(src/src/events/l1_event_watcher.rs): the cursor is written only when the
returned log list is non-empty, and then to the last log's block number.
The chain's latest block (`latestBlock`) is never queried by this
function, hence unused. -/
def l1WatcherCursorAfter (stored : Option Nat) (latestBlock : Nat)
    (logBlocks : List Nat) : Option Nat :=
  match logBlocks.getLast? with
  | some b => some b
  | none => stored

/-- Iterator `max` over block numbers (`unwrap_or` start for the empty
case, which the callers rule out). -/
def listMax (l : List Nat) : Nat := l.foldl Nat.max 0

/-- Cursor update of `fetch_l2_burn_events`
(src/src/events/l2_event_watcher.rs): the maximum event block when events
exist, else `latest_block` when it exceeds the range start. -/
def l2BurnCursorAfter (stored : Option Nat) (cfgFrom latestBlock : Nat)
    (eventBlocks : List Nat) : Option Nat :=
  if eventBlocks.isEmpty then
    if startBlock stored cfgFrom < latestBlock then some latestBlock else stored
  else some (listMax eventBlocks)

/-- Cursor update of `fetch_l2_withdrawal_commitment_events`
(src/src/events/l2_event_watcher.rs): the maximum event block when events
exist, else no write. -/
def l2WithdrawalCursorAfter (stored : Option Nat) (cfgFrom : Nat)
    (eventBlocks : List Nat) : Option Nat :=
  if eventBlocks.isEmpty then stored else some (listMax eventBlocks)

/-! ## Proof-job completion (src/src/relayer/proof_submission.rs,
`mark_proof_job_completed`)

The source issues two separate auto-committing statements on the pool —
no `begin`/`commit` pair — so a failure between them leaves the first
applied.  The deposit UPDATE matches every row with `status = 'pending'`;
its WHERE clause carries no reference to the proof job (the SQL comment
admits the matching criteria are missing).  `batch` is a ghost field
recording which proof job a deposit notionally belongs to; the modelled
query ignores it exactly as the SQL does.
-/

structure DepositRow where
  depId : Nat
  status : String
  batch : Nat
deriving DecidableEq

structure JobRow where
  jobId : Nat
  status : String
  currentStage : String
deriving DecidableEq

structure SeqDb where
  jobs : List JobRow
  deposits : List DepositRow
deriving DecidableEq

/-- First statement: set the job's status and stage to completed. -/
def completeJobQuery (db : SeqDb) (jobId : Nat) : SeqDb :=
  { db with jobs := db.jobs.map (fun j =>
      if j.jobId = jobId then { j with status := "completed", currentStage := "completed" }
      else j) }

/-- Second statement: flip every deposit with status `pending`,
regardless of which proof job it belongs to. -/
def flipDepositsQuery (db : SeqDb) : SeqDb :=
  { db with deposits := db.deposits.map (fun d =>
      if d.status = "pending" then { d with status := "READY_TO_CLAIM" } else d) }

/-- `mark_proof_job_completed`: two sequential auto-commit statements.
When the second fails (`failBetween`), the first stays applied — there is
no enclosing transaction to roll it back.  Returns the resulting state
and whether the call succeeded. -/
def markProofJobCompleted (db : SeqDb) (jobId : Nat) (failBetween : Bool) :
    SeqDb × Bool :=
  let db1 := completeJobQuery db jobId
  if failBetween then (db1, false) else (flipDepositsQuery db1, true)

/-! ## Multi-stage proof submission (src/src/relayer/proof_submission.rs,
`submit_proof_from_calldata`)

The calldata directory holds `initial`, `step1 … stepN`, `final`; it is
modelled by the number `n` of step files (file `stepK` exists iff
`1 ≤ K ≤ n`).  The recorded `current_stage` strings are modelled by the
inductive `Stage`; the keys of the `tx_hashes` map by `StageKey`.  A run
returns the updated job row and the ordered trace of transactions it
submitted. -/

inductive Stage where
  | processing
  | initialSubmitted
  | stepSubmitted (k : Nat)
  | finalSubmitted
  | completed
deriving DecidableEq

inductive StageKey where
  | initial
  | step (k : Nat)
  | final
deriving DecidableEq

structure SubJob where
  currentStage : Stage
  txHashes : List StageKey
deriving DecidableEq

/-- HashMap insert on the key set: a fresh key is appended, an existing
key keeps its single entry (its value is replaced). -/
def insertKey (m : List StageKey) (k : StageKey) : List StageKey :=
  if k ∈ m then m else m ++ [k]

/-- One successful stage submission: send the transaction, record the
stage, append the tx hash under the stage's key. -/
def submitStage (j : SubJob) (s : Stage) (key : StageKey) : SubJob :=
  { currentStage := s, txHashes := insertKey j.txHashes key }

/-- The `submit_step_proofs_from` loop: submit `stepK` while the file
exists, i.e. while `k ≤ n`.  Structural recursion on explicit fuel. -/
def stepsAux (n : Nat) : Nat → Nat → SubJob → SubJob × List StageKey
  | 0, _, j => (j, [])
  | fuel + 1, k, j =>
    if k ≤ n then
      let j1 := submitStage j (.stepSubmitted k) (.step k)
      let r := stepsAux n fuel (k + 1) j1
      (r.1, .step k :: r.2)
    else (j, [])

def submitStepsFrom (n k : Nat) (j : SubJob) : SubJob × List StageKey :=
  stepsAux n (n + 1 - k) k j

/-- `submit_final_proof` followed by `mark_proof_job_completed`. -/
def submitFinal (j : SubJob) : SubJob × List StageKey :=
  let j1 := submitStage j .finalSubmitted .final
  ({ j1 with currentStage := .completed }, [.final])

def stepsThenFinal (n k : Nat) (j : SubJob) : SubJob × List StageKey :=
  let r := submitStepsFrom n k j
  let f := submitFinal r.1
  (f.1, r.2 ++ f.2)

/-- The dispatcher of `submit_proof_from_calldata` on the recorded
`current_stage` (all submissions succeeding). -/
def runFrom (n : Nat) (j : SubJob) : SubJob × List StageKey :=
  match j.currentStage with
  | .processing =>
    let j1 := submitStage j .initialSubmitted .initial
    let r := stepsThenFinal n 1 j1
    (r.1, .initial :: r.2)
  | .initialSubmitted => stepsThenFinal n 1 j
  | .stepSubmitted k => stepsThenFinal n (k + 1) j
  | .finalSubmitted => ({ j with currentStage := .completed }, [])
  | .completed => (j, [])

/-- The full submission order for a directory with `n` step files. -/
def fullOrder (n : Nat) : List StageKey :=
  .initial :: (List.range' 1 n).map .step ++ [.final]

/-- The stages already submitted successfully when `current_stage` was
recorded as `s`. -/
def completedStages (n : Nat) : Stage → List StageKey
  | .processing => []
  | .initialSubmitted => [.initial]
  | .stepSubmitted k => .initial :: (List.range' 1 k).map .step
  | .finalSubmitted => fullOrder n
  | .completed => fullOrder n

/-- The stages a restarted submitter can find recorded for a directory
with `n` step files. -/
def validStage (n : Nat) : Stage → Prop
  | .stepSubmitted k => 1 ≤ k ∧ k ≤ n
  | _ => True

def validStageDec (n : Nat) : (s : Stage) → Decidable (validStage n s)
  | .processing => .isTrue trivial
  | .initialSubmitted => .isTrue trivial
  | .stepSubmitted k => inferInstanceAs (Decidable (1 ≤ k ∧ k ≤ n))
  | .finalSubmitted => .isTrue trivial
  | .completed => .isTrue trivial

instance (n : Nat) (s : Stage) : Decidable (validStage n s) := validStageDec n s

/-- The job row as the restarted submitter finds it: the recorded stage
and one tx-hash entry per stage completed so far. -/
def initJob (n : Nat) (s : Stage) : SubJob :=
  { currentStage := s, txHashes := completedStages n s }

def runTrace (n : Nat) (s : Stage) : List StageKey := (runFrom n (initJob n s)).2

def runJob (n : Nat) (s : Stage) : SubJob := (runFrom n (initJob n s)).1

/-! ## Merkle Mountain Range (crates/tree-builder)

Modelled from the spec: the MMR accumulator itself lives in the external
`accumulators` crate; §4.B of the spec fixes its behaviour (append with
the standard bag step, root `H(elements_count, bag_the_peaks(peaks))`
with peaks bagged tallest-first, inclusion proofs that verify by
equality against the current root).  The model is generic over the
hasher pair `hp : hash_pair` and `hc : hash_commit`, covering both the
Keccak (L1) and the Poseidon (L2) instances; scalars are `Nat`.  The
`get_proof`-by-leaf-value scan and `verify_proof` wrappers follow
src/crates/tree-builder/src/l1_tree.rs and l2_tree.rs.
-/

inductive MTree where
  | leafN (v : Nat)
  | nodeN (l r : MTree)
deriving DecidableEq

/-- The stored hash of a node: leaves hold the appended scalar, inner
nodes hold `hash_pair` of their children. -/
def treeVal (hp : Nat → Nat → Nat) : MTree → Nat
  | .leafN v => v
  | .nodeN l r => hp (treeVal hp l) (treeVal hp r)

def leavesOf : MTree → List Nat
  | .leafN v => [v]
  | .nodeN l r => leavesOf l ++ leavesOf r

def treeSize : MTree → Nat
  | .leafN _ => 1
  | .nodeN l r => treeSize l + treeSize r + 1

/-- The MMR bag step after an append: while the two most recent peaks
have equal height, hash them into one.  The peak stack is kept most
recent first; structural recursion on explicit fuel. -/
def mergeAux (hp : Nat → Nat → Nat) : Nat → List (Nat × MTree) → List (Nat × MTree)
  | 0, pk => pk
  | fuel + 1, (h1, t1) :: (h2, t2) :: rest =>
    if h1 = h2 then mergeAux hp fuel ((h1 + 1, .nodeN t2 t1) :: rest)
    else (h1, t1) :: (h2, t2) :: rest
  | _ + 1, pk => pk

/-- `append(leaf)`: push a height-0 peak and bag. -/
def pushLeaf (hp : Nat → Nat → Nat) (pk : List (Nat × MTree)) (v : Nat) :
    List (Nat × MTree) :=
  mergeAux hp (pk.length + 1) ((0, .leafN v) :: pk)

/-- `build_merkle`: append each leaf in order; the result lists the peak
trees tallest (oldest) first, as the on-chain layout does. -/
def buildMerkleM (hp : Nat → Nat → Nat) (leaves : List Nat) : List MTree :=
  ((leaves.foldl (pushLeaf hp) []).reverse).map Prod.snd

/-- `bag_the_peaks` over peak values ordered tallest-first. -/
def bagPeaks (hp : Nat → Nat → Nat) : List Nat → Nat
  | [] => 0
  | [x] => x
  | x :: y :: rest => hp x (bagPeaks hp (y :: rest))

def countOf (st : List MTree) : Nat := (st.map treeSize).sum

/-- `get_root`: `hash_commit(elements_count, bag)`. -/
def rootOf (hp hc : Nat → Nat → Nat) (st : List MTree) : Nat :=
  hc (countOf st) (bagPeaks hp (st.map (treeVal hp)))

/-- All node positions of one peak tree, in the MMR's flat append order
(children before their parent). -/
def nodePaths : MTree → List (List Bool)
  | .leafN _ => [[]]
  | .nodeN l r =>
    (nodePaths l).map (List.cons false) ++ (nodePaths r).map (List.cons true) ++ [[]]

def subtreeAt : MTree → List Bool → Option MTree
  | t, [] => some t
  | .leafN _, _ :: _ => none
  | .nodeN l _, false :: p => subtreeAt l p
  | .nodeN _ r, true :: p => subtreeAt r p

def valAt (hp : Nat → Nat → Nat) (t : MTree) (p : List Bool) : Option Nat :=
  (subtreeAt t p).map (treeVal hp)

/-- Every node position of the accumulator in flat storage order:
peak index paired with the path inside that peak. -/
def allRefsAux (k0 : Nat) : List MTree → List (Nat × List Bool)
  | [] => []
  | t :: ts => (nodePaths t).map (fun p => (k0, p)) ++ allRefsAux (k0 + 1) ts

def allRefs (st : List MTree) : List (Nat × List Bool) := allRefsAux 0 st

/-- The wrapper's scan in `get_proof`: the first stored node whose hash
equals the requested leaf value. -/
def findRef (hp : Nat → Nat → Nat) (st : List MTree) (v : Nat) :
    Option (Nat × List Bool) :=
  (allRefs st).find? (fun r => valAt hp (st.getD r.1 (.leafN 0)) r.2 == some v)

/-- The sibling hashes along a path, innermost first, each tagged with
whether the visited child is the right child. -/
def sibs (hp : Nat → Nat → Nat) : MTree → List Bool → List (Bool × Nat)
  | .nodeN l r, false :: p => sibs hp l p ++ [(false, treeVal hp r)]
  | .nodeN l r, true :: p => sibs hp r p ++ [(true, treeVal hp l)]
  | _, _ => []

/-- Recompute a peak hash from a leaf value and its sibling path. -/
def climb (hp : Nat → Nat → Nat) (v : Nat) : List (Bool × Nat) → Nat
  | [] => v
  | (isRight, s) :: rest => climb hp (if isRight then hp s v else hp v s) rest

/-- An inclusion proof: the located position, its sibling path, the peak
hashes (tallest-first) and the elements count. -/
structure MmrProof where
  peakIdx : Nat
  path : List Bool
  sibsList : List (Bool × Nat)
  peaksVals : List Nat
  count : Nat
deriving DecidableEq

/-- `get_proof(leaf)`: scan for the leaf value, then emit the proof for
the found position. -/
def getProofM (hp : Nat → Nat → Nat) (st : List MTree) (v : Nat) :
    Option MmrProof :=
  match findRef hp st v with
  | some kp =>
    some { peakIdx := kp.1, path := kp.2,
           sibsList := sibs hp (st.getD kp.1 (.leafN 0)) kp.2,
           peaksVals := st.map (treeVal hp), count := countOf st }
  | none => none

/-- `verify_proof(proof, leaf)`: recompute the peak from the leaf and the
sibling path, re-bag the peaks, and compare with the current root. -/
def verifyM (hp hc : Nat → Nat → Nat) (st : List MTree) (pf : MmrProof)
    (v : Nat) : Bool :=
  let peak := climb hp v pf.sibsList
  hc pf.count (bagPeaks hp (pf.peaksVals.set pf.peakIdx peak)) == rootOf hp hc st

/-- The appended leaves of the peak stack, oldest first. -/
def stackLeaves : List (Nat × MTree) → List Nat
  | [] => []
  | ht :: rest => stackLeaves rest ++ leavesOf ht.2

/-- The appended leaves of the tallest-first peak list, oldest first. -/
def treesLeaves (ts : List MTree) : List Nat := ts.flatMap leavesOf

/-! ## Concrete instances used by witnesses -/

def pairHashW (a b : Nat) : Nat := 7 * a + 3 * b + 11

def commitHashW (c b : Nat) : Nat := 1000000 * c + b

/-- A journal state with one proof job and two pending deposits, the
second belonging to a different batch than the job being completed. -/
def exampleDb : SeqDb :=
  { jobs := [{ jobId := 1, status := ("processing"), currentStage := ("final_submitted") }],
    deposits := [{ depId := 10, status := ("pending"), batch := 1 },
                 { depId := 11, status := ("pending"), batch := 2 }] }

/-! ## Theorems -/

/-- Claim C8: the string-to-felt stage encoding hex-encodes the ASCII
bytes of its input behind a 0x prefix; in particular encode "stone6"
is 0x73746f6e6536, encode "" is 0x, and encode "keccak_160_lsb" is
0x6b656363616b5f3136305f6c7362. -/
theorem C8_string_to_hex :
    (∀ bs : List Nat, stringToHex bs = '0' :: 'x' :: bytesToHexChars bs) ∧
    stringToHex (asciiBytes ("stone6")) = ("0x73746f6e6536").data ∧
    stringToHex (asciiBytes ("")) = ("0x").data ∧
    stringToHex (asciiBytes ("keccak_160_lsb")) =
      ("0x6b656363616b5f3136305f6c7362").data :=
  ⟨fun _ => rfl, by decide, by decide, by decide⟩

/-- Claim C10: string_to_felt is not total: the empty string hex-encodes
to bare 0x, which carries no hex digit, so Felt::from_hex fails and the
unwrap panics (modelled: the result is none). -/
theorem C10_string_to_felt_partial :
    stringToFelt (asciiBytes ("")) = none ∧
    stringToHex (asciiBytes ("")) = ("0x").data :=
  ⟨rfl, rfl⟩

/-- Claim C9: the L1 fund-unlock relayer normalizes a decoded commitment
hash by copying its bytes to the front of a zeroed 32-byte array: short
inputs are right-padded with trailing zeros, long inputs are truncated
to their first 32 bytes. -/
theorem C9_commitment_normalization (bs : List Nat) :
    (normalizeCommitment32 bs).length = 32 ∧
    (bs.length ≤ 32 →
      normalizeCommitment32 bs = bs ++ List.replicate (32 - bs.length) 0) ∧
    (32 ≤ bs.length → normalizeCommitment32 bs = bs.take 32) := by
  refine ⟨?_, fun h => ?_, fun h => ?_⟩
  · simp [normalizeCommitment32]
    omega
  · simp [normalizeCommitment32, List.take_of_length_le h]
  · simp [normalizeCommitment32, Nat.sub_eq_zero_of_le h]

/-- Witness for C9 at a 1-byte and a 40-byte input. -/
theorem C9_commitment_normalization_witness :
    normalizeCommitment32 [171] = [171] ++ List.replicate 31 0 ∧
    normalizeCommitment32 (List.replicate 40 7) = (List.replicate 40 7).take 32 :=
  ⟨(C9_commitment_normalization [171]).2.1 (by decide),
   (C9_commitment_normalization (List.replicate 40 7)).2.2 (by decide)⟩

/-- Claim C5 (counterexample): with stored cursor 5, a successful batch
returning no logs, and latest chain block 10, the L1 DepositEvent cursor
does not advance to the latest block; it stays at 5. -/
theorem C5_counterexample :
    l1WatcherCursorAfter (some 5) 10 [] = some 5 ∧
    l1WatcherCursorAfter (some 5) 10 [] ≠ some 10 :=
  ⟨rfl, by decide⟩

/-- Claim C5 (amended): after an L1 watcher batch in which the query
succeeds but returns no logs, the DepositEvent cursor is left unchanged
(so the range is re-scanned on the next tick); only when logs are
returned does it advance, to the last log's block number. -/
theorem C5_l1_cursor_on_empty :
    (∀ (stored : Option Nat) (latest : Nat),
      l1WatcherCursorAfter stored latest [] = stored) ∧
    (∀ (stored : Option Nat) (latest b : Nat) (bs : List Nat),
      l1WatcherCursorAfter stored latest (bs ++ [b]) = some b) := by
  refine ⟨fun _ _ => rfl, fun stored latest b bs => ?_⟩
  simp [l1WatcherCursorAfter]

/-- Claim C3 (code bug, evaluated at the failing input): completing proof
job 1 is not atomic — when the second statement fails the job is already
completed while no deposit moved — and on success every pending deposit
flips to READY_TO_CLAIM, including deposit 11 of batch 2, which does not
belong to job 1. -/
theorem C3_mark_completed_not_atomic_not_scoped :
    (markProofJobCompleted exampleDb 1 true).1.jobs =
      [{ jobId := 1, status := ("completed"), currentStage := ("completed") }] ∧
    (markProofJobCompleted exampleDb 1 true).1.deposits =
      [{ depId := 10, status := ("pending"), batch := 1 },
       { depId := 11, status := ("pending"), batch := 2 }] ∧
    (markProofJobCompleted exampleDb 1 false).1.deposits =
      [{ depId := 10, status := ("READY_TO_CLAIM"), batch := 1 },
       { depId := 11, status := ("READY_TO_CLAIM"), batch := 2 }] := by
  decide

theorem le_foldl_max (l : List Nat) : ∀ a : Nat, a ≤ l.foldl Nat.max a := by
  induction l with
  | nil => intro a; exact Nat.le_refl a
  | cons x xs ih =>
    intro a
    exact Nat.le_trans (Nat.le_max_left a x) (ih (Nat.max a x))

theorem mem_le_foldl_max (l : List Nat) :
    ∀ (a b : Nat), b ∈ l → b ≤ l.foldl Nat.max a := by
  induction l with
  | nil => intro a b hb; cases hb
  | cons x xs ih =>
    intro a b hb
    rcases List.mem_cons.mp hb with rfl | hb
    · exact Nat.le_trans (Nat.le_max_right a b) (le_foldl_max xs (Nat.max a b))
    · exact ih (Nat.max a x) b hb

theorem mem_le_listMax {l : List Nat} {b : Nat} (hb : b ∈ l) : b ≤ listMax l :=
  mem_le_foldl_max l 0 b hb

/-- Claim C6: every cursor write the watchers perform stores a block
number at least the currently stored one, provided the RPC returns only
blocks at or above the queried range start; so the stored cursor is
non-decreasing across ticks. -/
theorem C6_cursor_monotone :
    (∀ (c cfgFrom latest : Nat) (logBlocks : List Nat),
        (∀ b ∈ logBlocks, startBlock (some c) cfgFrom ≤ b) →
        ∃ c', l1WatcherCursorAfter (some c) latest logBlocks = some c' ∧ c ≤ c') ∧
    (∀ (c cfgFrom latest : Nat) (eventBlocks : List Nat),
        (∀ b ∈ eventBlocks, startBlock (some c) cfgFrom ≤ b) →
        ∃ c', l2BurnCursorAfter (some c) cfgFrom latest eventBlocks = some c' ∧ c ≤ c') ∧
    (∀ (c cfgFrom : Nat) (eventBlocks : List Nat),
        (∀ b ∈ eventBlocks, startBlock (some c) cfgFrom ≤ b) →
        ∃ c', l2WithdrawalCursorAfter (some c) cfgFrom eventBlocks = some c' ∧ c ≤ c') := by
  refine ⟨?_, ?_, ?_⟩
  · intro c cfgFrom latest logBlocks hrange
    cases hlast : logBlocks.getLast? with
    | none =>
      exact ⟨c, by simp [l1WatcherCursorAfter, hlast], Nat.le_refl c⟩
    | some b =>
      have hb : b ∈ logBlocks := by
        obtain ⟨h, rfl⟩ := List.mem_getLast?_eq_getLast (Option.mem_def.mpr hlast)
        exact List.getLast_mem h
      have := hrange b hb
      exact ⟨b, by simp [l1WatcherCursorAfter, hlast], by simp [startBlock] at this; omega⟩
  · intro c cfgFrom latest eventBlocks hrange
    cases eventBlocks with
    | nil =>
      by_cases hl : startBlock (some c) cfgFrom < latest
      · refine ⟨latest, ?_, ?_⟩
        · simp [l2BurnCursorAfter, hl]
        · simp [startBlock] at hl; omega
      · exact ⟨c, by simp [l2BurnCursorAfter, hl], Nat.le_refl c⟩
    | cons b bs =>
      refine ⟨listMax (b :: bs), by simp [l2BurnCursorAfter], ?_⟩
      have hb := hrange b (List.mem_cons_self b bs)
      have hmax : b ≤ listMax (b :: bs) := mem_le_listMax (List.mem_cons_self b bs)
      simp [startBlock] at hb
      omega
  · intro c cfgFrom eventBlocks hrange
    cases eventBlocks with
    | nil => exact ⟨c, by simp [l2WithdrawalCursorAfter], Nat.le_refl c⟩
    | cons b bs =>
      refine ⟨listMax (b :: bs), by simp [l2WithdrawalCursorAfter], ?_⟩
      have hb := hrange b (List.mem_cons_self b bs)
      have hmax : b ≤ listMax (b :: bs) := mem_le_listMax (List.mem_cons_self b bs)
      simp [startBlock] at hb
      omega

/-- Witness for C6: one concrete in-range tick per watcher. -/
theorem C6_cursor_monotone_witness :
    (∃ c', l1WatcherCursorAfter (some 4) 9 [5, 7] = some c' ∧ 4 ≤ c') ∧
    (∃ c', l2BurnCursorAfter (some 4) 0 9 [] = some c' ∧ 4 ≤ c') ∧
    (∃ c', l2WithdrawalCursorAfter (some 4) 0 [6] = some c' ∧ 4 ≤ c') :=
  ⟨C6_cursor_monotone.1 4 0 9 [5, 7] (by decide),
   C6_cursor_monotone.2.1 4 0 9 [] (by decide),
   C6_cursor_monotone.2.2 4 0 [6] (by decide)⟩

theorem hexToBytes32_length {s : List Char} {bs : List Nat}
    (h : hexToBytes32 s = some bs) : bs.length = 32 := by
  cases hd : hexDecodeChars (drop0x s) with
  | none => simp [hexToBytes32, hd] at h
  | some l =>
    simp only [hexToBytes32, hd] at h
    by_cases hl : l.length = 32
    · simp only [if_pos hl, Option.some.injEq] at h
      rw [← h]
      exact hl
    · simp [if_neg hl] at h

theorem u64_pad_spec (v : Nat) (hv : v < 2 ^ 64) : u64ToU256Bytes v = specPad32 v := by
  apply List.ext_getElem
  · simp [u64ToU256Bytes, specPad32]
  · intro i h1 h2
    simp only [u64ToU256Bytes, specPad32, List.getElem_map, List.getElem_range]
    have h1' : i < 32 := by simpa [u64ToU256Bytes] using h1
    by_cases hi : i < 24
    · rw [List.getElem_append_left (by simpa using hi)]
      rw [List.getElem_replicate]
      have hz : v >>> (8 * (31 - i)) = 0 := by
        rw [Nat.shiftRight_eq_div_pow]
        apply Nat.div_eq_of_lt
        calc v < 2 ^ 64 := hv
        _ ≤ 2 ^ (8 * (31 - i)) := Nat.pow_le_pow_right (by omega) (by omega)
      rw [hz]
      rfl
    · rw [List.getElem_append_right (by simpa using hi)]
      simp only [List.length_replicate, List.getElem_map, List.getElem_range]
      have : 8 * (7 - (i - 24)) = 8 * (31 - i) := by omega
      rw [this]

set_option maxRecDepth 200000 in
/-- Claim C1: whenever the caller hex-decodes to exactly 32 bytes, the
commitment is keccak256 of the 128-byte concatenation of the caller
bytes followed by amount, nonce and timestamp, each zero-padded on the
left to 32 big-endian bytes; on the Solidity-aligned vector the
hex-rendered commitment equals
0x2b6876060a11edcc5dde925cda8fad185f34564e35802fa40ee8ead2f9acb06f. -/
theorem C1_keccak_commitment :
    (∀ (caller : List Char) (cb : List Nat) (a n t : Nat),
        a < 2 ^ 64 → n < 2 ^ 64 → t < 2 ^ 64 →
        hexToBytes32 caller = some cb →
        computeCommitmentHash ⟨caller, a, n, t⟩ =
          some (keccak256 (cb ++ specPad32 a ++ specPad32 n ++ specPad32 t)) ∧
        (cb ++ specPad32 a ++ specPad32 n ++ specPad32 t).length = 128) ∧
    hashToHexString
        ⟨("0x049d36570d4e46f48e99674bd3fcc84644ddd6b96f7c741b1562b82f9e004dc7").data,
         50000, 123, 1672531200⟩ =
      some (("0x2b6876060a11edcc5dde925cda8fad185f34564e35802fa40ee8ead2f9acb06f").data) := by
  constructor
  · intro caller cb a n t ha hn ht hdec
    have hlen : cb.length = 32 := hexToBytes32_length hdec
    constructor
    · simp only [computeCommitmentHash, hdec, encodePacked,
        u64_pad_spec a ha, u64_pad_spec n hn, u64_pad_spec t ht, List.append_assoc]
    · simp [specPad32, hlen]
  · decide

set_option maxRecDepth 200000 in
/-- Witness for C1 at the repository's all-ones test vector. -/
theorem C1_keccak_commitment_witness :
    hexToBytes32
        (("0x0101010101010101010101010101010101010101010101010101010101010101").data) =
      some (List.replicate 32 1) ∧
    computeCommitmentHash
        ⟨("0x0101010101010101010101010101010101010101010101010101010101010101").data,
         1000, 42, 1640995200⟩ =
      some (keccak256 (List.replicate 32 1 ++ specPad32 1000 ++ specPad32 42 ++
        specPad32 1640995200)) :=
  ⟨by decide,
   (C1_keccak_commitment.1 _ (List.replicate 32 1) 1000 42 1640995200
      (by norm_num) (by norm_num) (by norm_num) (by decide)).1⟩

theorem stepsAux_eq (n : Nat) :
    ∀ (fuel k : Nat) (j : SubJob), n + 1 - k ≤ fuel →
    stepsAux n fuel k j =
      ({ currentStage := if k ≤ n then .stepSubmitted n else j.currentStage,
         txHashes :=
           ((List.range' k (n + 1 - k)).map StageKey.step).foldl insertKey j.txHashes },
       (List.range' k (n + 1 - k)).map StageKey.step) := by
  intro fuel
  induction fuel with
  | zero =>
    intro k j h
    have hk : ¬ k ≤ n := by omega
    have h0 : n + 1 - k = 0 := by omega
    simp [stepsAux, h0, hk]
  | succ fuel ih =>
    intro k j h
    by_cases hk : k ≤ n
    · have hrange : List.range' k (n + 1 - k) =
          k :: List.range' (k + 1) (n + 1 - (k + 1)) := by
        have h1 : n + 1 - k = (n + 1 - (k + 1)) + 1 := by omega
        rw [h1, List.range'_succ]
      simp only [stepsAux, if_pos hk]
      rw [ih (k + 1) (submitStage j (.stepSubmitted k) (.step k)) (by omega)]
      simp only [submitStage, hrange, List.map_cons, List.foldl_cons]
      by_cases hk1 : k + 1 ≤ n
      · simp [hk1]
      · have hkn : k = n := by omega
        subst hkn
        simp [hk1]
    · have h0 : n + 1 - k = 0 := by omega
      simp [stepsAux, hk, h0]

theorem submitStepsFrom_eq (n k : Nat) (j : SubJob) :
    submitStepsFrom n k j =
      ({ currentStage := if k ≤ n then .stepSubmitted n else j.currentStage,
         txHashes :=
           ((List.range' k (n + 1 - k)).map StageKey.step).foldl insertKey j.txHashes },
       (List.range' k (n + 1 - k)).map StageKey.step) :=
  stepsAux_eq n (n + 1 - k) k j (Nat.le_refl _)

theorem stepsThenFinal_eq (n k : Nat) (j : SubJob) :
    stepsThenFinal n k j =
      ({ currentStage := .completed,
         txHashes := insertKey
           (((List.range' k (n + 1 - k)).map StageKey.step).foldl insertKey j.txHashes)
           .final },
       (List.range' k (n + 1 - k)).map StageKey.step ++ [.final]) := by
  simp [stepsThenFinal, submitStepsFrom_eq, submitFinal, submitStage]

theorem foldl_insertKey_of_disjoint :
    ∀ (l2 m : List StageKey), (∀ x ∈ l2, x ∉ m) → l2.Nodup →
    l2.foldl insertKey m = m ++ l2 := by
  intro l2
  induction l2 with
  | nil => intro m _ _; simp
  | cons x xs ih =>
    intro m hd hn
    simp only [List.foldl_cons, insertKey, if_neg (hd x (List.mem_cons_self x xs))]
    rw [ih (m ++ [x]) ?_ (List.Nodup.of_cons hn)]
    · simp
    · intro y hy
      simp only [List.mem_append, List.mem_singleton]
      push_neg
      exact ⟨hd y (List.mem_cons_of_mem x hy),
             fun he => (List.nodup_cons.mp hn).1 (he ▸ hy)⟩

theorem stepKey_injective : Function.Injective StageKey.step := by
  intro a b h
  cases h
  rfl

theorem nodup_stepKeys (s n : Nat) : ((List.range' s n).map StageKey.step).Nodup :=
  (List.nodup_range' s n).map stepKey_injective

theorem nodup_fullOrder (n : Nat) : (fullOrder n).Nodup := by
  apply List.nodup_cons.mpr
  refine ⟨?_, ?_⟩
  · simp
  · apply List.Nodup.append (nodup_stepKeys 1 n) (by simp)
    intro x hx1 hx2
    simp only [List.mem_singleton] at hx2
    subst hx2
    simp at hx1

theorem range'_split (k n : Nat) (hk : k ≤ n) :
    List.range' 1 n = List.range' 1 k ++ List.range' (1 + k) (n - k) := by
  have h := List.range'_append 1 k (n - k) 1
  simp only [Nat.one_mul] at h
  rw [h]
  congr 1
  omega

theorem insertKey_of_not_mem {m : List StageKey} {k : StageKey} (h : k ∉ m) :
    insertKey m k = m ++ [k] := by
  simp [insertKey, h]

theorem completed_take (n : Nat) (s : Stage) (hs : validStage n s) :
    completedStages n s = (fullOrder n).take (completedStages n s).length := by
  cases s with
  | processing => simp [completedStages]
  | initialSubmitted => simp [completedStages, fullOrder]
  | stepSubmitted k =>
    obtain ⟨hk1, hkn⟩ := hs
    have hlen : (completedStages n (.stepSubmitted k)).length = k + 1 := by
      simp [completedStages]
    have h3 : fullOrder n =
        (StageKey.initial :: List.map StageKey.step (List.range' 1 k)) ++
          (List.map StageKey.step (List.range' (1 + k) (n - k)) ++ [StageKey.final]) := by
      simp only [fullOrder]
      rw [range'_split k n hkn]
      simp only [List.map_append, List.cons_append, List.append_assoc]
    rw [hlen, h3, List.take_left' (by simp)]
    rfl
  | finalSubmitted => simp [completedStages, List.take_length]
  | completed => simp [completedStages, List.take_length]

theorem steps_disjoint (a b n : Nat) (hab : a < b) :
    ∀ x ∈ (List.range' b n).map StageKey.step,
      x ∉ StageKey.initial :: (List.range' 1 a).map StageKey.step := by
  intro x hx
  simp only [List.mem_map] at hx
  obtain ⟨m, hm, rfl⟩ := hx
  have hm' := List.mem_range'_1.mp hm
  intro hmem
  rcases List.mem_cons.mp hmem with h | h
  · cases h
  · simp only [List.mem_map] at h
    obtain ⟨m', hm'2, he⟩ := h
    have := List.mem_range'_1.mp hm'2
    cases he
    omega

/-- Claim C4: a submitter restarted at any recorded stage issues exactly
the remaining transactions, in the order initial, step1 … stepN, final;
no already-recorded stage is re-sent, and the final tx_hashes map holds
one entry per stage. -/
theorem C4_resume_order (n : Nat) (s : Stage) (hs : validStage n s) :
    runTrace n s = (fullOrder n).drop (completedStages n s).length ∧
    (∀ x ∈ runTrace n s, x ∉ completedStages n s) ∧
    runJob n s = { currentStage := .completed, txHashes := fullOrder n } := by
  have hfold1 : ((List.range' 1 n).map StageKey.step).foldl insertKey [StageKey.initial] =
      [StageKey.initial] ++ (List.range' 1 n).map StageKey.step := by
    apply foldl_insertKey_of_disjoint _ _ ?_ (nodup_stepKeys 1 n)
    intro x hx
    have := steps_disjoint 0 1 n (by omega) x (by simpa using hx)
    simpa using this
  have hmain : runTrace n s = (fullOrder n).drop (completedStages n s).length ∧
      runJob n s = { currentStage := .completed, txHashes := fullOrder n } := by
    cases s with
    | processing =>
      constructor
      · simp [runTrace, runFrom, initJob, completedStages, submitStage, insertKey,
          stepsThenFinal_eq, fullOrder]
      · simp only [runJob, runFrom, initJob, completedStages, submitStage,
          stepsThenFinal_eq]
        have hik : insertKey ([] : List StageKey) .initial = [.initial] := by
          simp [insertKey]
        rw [hik]
        simp only [Nat.add_sub_cancel, hfold1]
        rw [insertKey_of_not_mem (by simp)]
        simp [fullOrder]
    | initialSubmitted =>
      constructor
      · simp [runTrace, runFrom, initJob, completedStages, stepsThenFinal_eq, fullOrder]
      · simp only [runJob, runFrom, initJob, completedStages, stepsThenFinal_eq]
        simp only [Nat.add_sub_cancel, hfold1]
        rw [insertKey_of_not_mem (by simp)]
        simp [fullOrder]
    | stepSubmitted k =>
      obtain ⟨hk1, hkn⟩ := hs
      have h1 : n + 1 - (k + 1) = n - k := by omega
      have h2 : 1 + k = k + 1 := by omega
      have h3 : fullOrder n =
          (StageKey.initial :: List.map StageKey.step (List.range' 1 k)) ++
            (List.map StageKey.step (List.range' (k + 1) (n - k)) ++ [StageKey.final]) := by
        simp only [fullOrder]
        rw [range'_split k n hkn, h2]
        simp only [List.map_append, List.cons_append, List.append_assoc]
      have hfoldk : ((List.range' (k + 1) (n - k)).map StageKey.step).foldl insertKey
            (StageKey.initial :: (List.range' 1 k).map StageKey.step) =
          (StageKey.initial :: (List.range' 1 k).map StageKey.step) ++
            (List.range' (k + 1) (n - k)).map StageKey.step := by
        apply foldl_insertKey_of_disjoint _ _ ?_ (nodup_stepKeys (k + 1) (n - k))
        exact steps_disjoint k (k + 1) (n - k) (by omega)
      constructor
      · simp only [runTrace, runFrom, initJob, completedStages, stepsThenFinal_eq,
          List.length_cons, List.length_map, List.length_range']
        rw [h1, h3, List.drop_left' (by simp)]
      · simp only [runJob, runFrom, initJob, completedStages, stepsThenFinal_eq]
        rw [h1, hfoldk, insertKey_of_not_mem (by simp), h3]
        simp
    | finalSubmitted =>
      refine ⟨?_, rfl⟩
      simp [runTrace, runFrom, initJob, completedStages, List.drop_length]
    | completed =>
      refine ⟨?_, rfl⟩
      simp [runTrace, runFrom, initJob, completedStages, List.drop_length]
  refine ⟨hmain.1, ?_, hmain.2⟩
  intro x hx
  rw [hmain.1] at hx
  rw [completed_take n s hs]
  intro hx'
  exact List.disjoint_take_drop (nodup_fullOrder n) (Nat.le_refl _) hx' hx

/-- Witness for C4: a two-step directory resumed after step1. -/
theorem C4_resume_order_witness :
    runTrace 2 (.stepSubmitted 1) =
      (fullOrder 2).drop (completedStages 2 (.stepSubmitted 1)).length ∧
    (∀ x ∈ runTrace 2 (.stepSubmitted 1), x ∉ completedStages 2 (.stepSubmitted 1)) ∧
    runJob 2 (.stepSubmitted 1) = { currentStage := .completed, txHashes := fullOrder 2 } :=
  C4_resume_order 2 (.stepSubmitted 1) (by decide)

theorem climb_append (hp : Nat → Nat → Nat) (xs ys : List (Bool × Nat)) :
    ∀ v, climb hp v (xs ++ ys) = climb hp (climb hp v xs) ys := by
  induction xs with
  | nil => intro v; rfl
  | cons x xs ih =>
    intro v
    cases x with
    | mk isRight s =>
      simp only [List.cons_append, climb]
      exact ih _

theorem climb_sibs (hp : Nat → Nat → Nat) :
    ∀ (p : List Bool) (t st : MTree), subtreeAt t p = some st →
    climb hp (treeVal hp st) (sibs hp t p) = treeVal hp t := by
  intro p
  induction p with
  | nil =>
    intro t st h
    simp only [subtreeAt, Option.some.injEq] at h
    subst h
    cases t <;> rfl
  | cons b p ih =>
    intro t st h
    cases t with
    | leafN v => simp [subtreeAt] at h
    | nodeN l r =>
      cases b with
      | false =>
        simp only [subtreeAt] at h
        simp only [sibs]
        rw [climb_append, ih l st h]
        rfl
      | true =>
        simp only [subtreeAt] at h
        simp only [sibs]
        rw [climb_append, ih r st h]
        rfl

theorem bound_of_mem_allRefsAux :
    ∀ (st : List MTree) (k0 k : Nat) (p : List Bool),
    (k, p) ∈ allRefsAux k0 st → k0 ≤ k ∧ k < k0 + st.length := by
  intro st
  induction st with
  | nil => intro k0 k p h; simp [allRefsAux] at h
  | cons t ts ih =>
    intro k0 k p h
    simp only [allRefsAux, List.mem_append, List.mem_map] at h
    rcases h with ⟨q, _, he⟩ | h
    · have hk : k0 = k := congrArg Prod.fst he
      simp only [List.length_cons]
      omega
    · have := ih (k0 + 1) k p h
      simp only [List.length_cons]
      omega

theorem mem_allRefsAux_of_path :
    ∀ (st : List MTree) (k0 i : Nat) (p : List Bool), i < st.length →
    p ∈ nodePaths (st.getD i (.leafN 0)) → (k0 + i, p) ∈ allRefsAux k0 st := by
  intro st
  induction st with
  | nil => intro k0 i p hi; simp at hi
  | cons t ts ih =>
    intro k0 i p hi hp
    simp only [allRefsAux, List.mem_append, List.mem_map]
    cases i with
    | zero =>
      left
      exact ⟨p, by simpa using hp, rfl⟩
    | succ i =>
      right
      have := ih (k0 + 1) i p (by simpa using hi) (by simpa using hp)
      have he : k0 + 1 + i = k0 + (i + 1) := by omega
      rw [he] at this
      exact this

theorem set_getD_self : ∀ (l : List Nat) (k : Nat) (d : Nat), k < l.length →
    l.set k (l.getD k d) = l := by
  intro l
  induction l with
  | nil => intro k d h; simp at h
  | cons x xs ih =>
    intro k d h
    cases k with
    | zero => simp
    | succ k =>
      simp only [List.getD_cons_succ, List.set_cons_succ]
      rw [ih k d (by simpa using h)]

theorem getD_map_treeVal (hp : Nat → Nat → Nat) :
    ∀ (st : List MTree) (k : Nat), k < st.length →
    (st.map (treeVal hp)).getD k 0 = treeVal hp (st.getD k (.leafN 0)) := by
  intro st
  induction st with
  | nil => intro k h; simp at h
  | cons t ts ih =>
    intro k h
    cases k with
    | zero => rfl
    | succ k => exact ih k (by simpa using h)

theorem stackLeaves_mergeAux (hp : Nat → Nat → Nat) :
    ∀ (fuel : Nat) (pk : List (Nat × MTree)),
    stackLeaves (mergeAux hp fuel pk) = stackLeaves pk := by
  intro fuel
  induction fuel with
  | zero => intro pk; rfl
  | succ fuel ih =>
    intro pk
    match pk with
    | [] => rfl
    | [x] => rfl
    | (h1, t1) :: (h2, t2) :: rest =>
      simp only [mergeAux]
      by_cases he : h1 = h2
      · rw [if_pos he, ih]
        simp [stackLeaves, leavesOf, List.append_assoc]
      · rw [if_neg he]

theorem stackLeaves_pushLeaf (hp : Nat → Nat → Nat) (pk : List (Nat × MTree)) (v : Nat) :
    stackLeaves (pushLeaf hp pk v) = stackLeaves pk ++ [v] := by
  simp [pushLeaf, stackLeaves_mergeAux, stackLeaves, leavesOf]

theorem stackLeaves_foldl (hp : Nat → Nat → Nat) :
    ∀ (L : List Nat) (pk : List (Nat × MTree)),
    stackLeaves (L.foldl (pushLeaf hp) pk) = stackLeaves pk ++ L := by
  intro L
  induction L with
  | nil => intro pk; simp
  | cons x xs ih =>
    intro pk
    simp only [List.foldl_cons]
    rw [ih, stackLeaves_pushLeaf]
    simp

theorem treesLeaves_reverse_stack :
    ∀ pk : List (Nat × MTree), treesLeaves ((pk.reverse).map Prod.snd) = stackLeaves pk := by
  intro pk
  induction pk with
  | nil => rfl
  | cons ht rest ih =>
    simp only [List.reverse_cons, List.map_append, treesLeaves, stackLeaves]
    rw [List.flatMap_append]
    rw [← treesLeaves, ih]
    simp [leavesOf, treesLeaves]

theorem treesLeaves_buildMerkleM (hp : Nat → Nat → Nat) (L : List Nat) :
    treesLeaves (buildMerkleM hp L) = L := by
  rw [buildMerkleM, treesLeaves_reverse_stack, stackLeaves_foldl]
  rfl

theorem exists_leaf_path :
    ∀ (t : MTree) (v : Nat), v ∈ leavesOf t →
    ∃ p, p ∈ nodePaths t ∧ subtreeAt t p = some (.leafN v) := by
  intro t
  induction t with
  | leafN w =>
    intro v hv
    simp only [leavesOf, List.mem_singleton] at hv
    subst hv
    exact ⟨[], by simp [nodePaths], rfl⟩
  | nodeN l r ihl ihr =>
    intro v hv
    simp only [leavesOf, List.mem_append] at hv
    rcases hv with h | h
    · obtain ⟨p, hp1, hp2⟩ := ihl v h
      refine ⟨false :: p, ?_, by simpa [subtreeAt] using hp2⟩
      simp only [nodePaths, List.mem_append, List.mem_map]
      left
      left
      exact ⟨p, hp1, rfl⟩
    · obtain ⟨p, hp1, hp2⟩ := ihr v h
      refine ⟨true :: p, ?_, by simpa [subtreeAt] using hp2⟩
      simp only [nodePaths, List.mem_append, List.mem_map]
      left
      right
      exact ⟨p, hp1, rfl⟩

theorem exists_ref_of_leaf (hp : Nat → Nat → Nat) (st : List MTree) (v : Nat)
    (hv : v ∈ treesLeaves st) :
    ∃ k p, (k, p) ∈ allRefs st ∧ valAt hp (st.getD k (.leafN 0)) p = some v := by
  obtain ⟨t, ht, hvt⟩ := List.mem_flatMap.mp hv
  obtain ⟨i, hi, rfl⟩ := List.mem_iff_getElem.mp ht
  have hgd : st.getD i (.leafN 0) = st[i] := List.getD_eq_getElem st (.leafN 0) hi
  obtain ⟨p, hp1, hp2⟩ := exists_leaf_path _ v hvt
  refine ⟨i, p, ?_, ?_⟩
  · have := mem_allRefsAux_of_path st 0 i p hi (by rw [hgd]; exact hp1)
    simpa [allRefs] using this
  · rw [valAt, hgd, hp2]
    rfl

/-- Claim C2 (modelled from the spec, §4.B): for every leaf sequence
appended via build_merkle and every index, get_proof on the leaf value
returns a proof and verify_proof accepts it — for any hasher pair
(hash_pair, hash_commit), hence for both the Keccak (L1) and the
Poseidon (L2) instances. -/
theorem C2_mmr_roundtrip (hp hc : Nat → Nat → Nat) (L : List Nat) (i : Nat)
    (hi : i < L.length) :
    (getProofM hp (buildMerkleM hp L) (L.getD i 0)).isSome = true ∧
    ∀ pf, getProofM hp (buildMerkleM hp L) (L.getD i 0) = some pf →
      verifyM hp hc (buildMerkleM hp L) pf (L.getD i 0) = true := by
  have hvL : L.getD i 0 ∈ treesLeaves (buildMerkleM hp L) := by
    rw [treesLeaves_buildMerkleM]
    rw [List.getD_eq_getElem L 0 hi]
    exact List.getElem_mem hi
  obtain ⟨k1, p1, hmem1, hval1⟩ := exists_ref_of_leaf hp (buildMerkleM hp L) (L.getD i 0) hvL
  have hfind : ∃ kp, findRef hp (buildMerkleM hp L) (L.getD i 0) = some kp := by
    cases hf : findRef hp (buildMerkleM hp L) (L.getD i 0) with
    | some kp => exact ⟨kp, rfl⟩
    | none =>
      exfalso
      have hnone := List.find?_eq_none.mp hf (k1, p1) hmem1
      apply hnone
      show (valAt hp ((buildMerkleM hp L).getD k1 (MTree.leafN 0)) p1 ==
        some (L.getD i 0)) = true
      rw [hval1]
      exact beq_self_eq_true _
  obtain ⟨⟨k, p⟩, hfd⟩ := hfind
  have hpred := List.find?_some hfd
  have hmem : (k, p) ∈ allRefs (buildMerkleM hp L) := List.mem_of_find?_eq_some hfd
  have hk : k < (buildMerkleM hp L).length := by
    have := bound_of_mem_allRefsAux (buildMerkleM hp L) 0 k p (by simpa [allRefs] using hmem)
    omega
  have hval : valAt hp ((buildMerkleM hp L).getD k (.leafN 0)) p = some (L.getD i 0) := by
    simpa using hpred
  have hsub : ∃ t', subtreeAt ((buildMerkleM hp L).getD k (.leafN 0)) p = some t' ∧
      treeVal hp t' = L.getD i 0 := by
    simp only [valAt] at hval
    cases hsc : subtreeAt ((buildMerkleM hp L).getD k (.leafN 0)) p with
    | none => rw [hsc] at hval; simp at hval
    | some t' =>
      rw [hsc] at hval
      exact ⟨t', rfl, Option.some.inj hval⟩
  obtain ⟨t', hsub, htv⟩ := hsub
  constructor
  · simp only [getProofM]
    rw [hfd]
    rfl
  · intro pf hpf
    simp only [getProofM, hfd, Option.some.injEq] at hpf
    subst hpf
    simp only [verifyM]
    have hclimb : climb hp (L.getD i 0)
        (sibs hp ((buildMerkleM hp L).getD k (.leafN 0)) p) =
        treeVal hp ((buildMerkleM hp L).getD k (.leafN 0)) := by
      have hcs := climb_sibs hp p ((buildMerkleM hp L).getD k (.leafN 0)) t' hsub
      rw [htv] at hcs
      exact hcs
    rw [hclimb]
    have hset : ((buildMerkleM hp L).map (treeVal hp)).set k
        (treeVal hp ((buildMerkleM hp L).getD k (.leafN 0))) =
        (buildMerkleM hp L).map (treeVal hp) := by
      rw [← getD_map_treeVal hp (buildMerkleM hp L) k hk]
      exact set_getD_self _ k _ (by simpa using hk)
    rw [hset]
    simp [rootOf]

/-- Witness for C2 on a three-leaf tree with a concrete hasher pair. -/
theorem C2_mmr_roundtrip_witness :
    (getProofM pairHashW (buildMerkleM pairHashW [10, 20, 30])
        ([10, 20, 30].getD 1 0)).isSome = true ∧
    ∀ pf, getProofM pairHashW (buildMerkleM pairHashW [10, 20, 30])
        ([10, 20, 30].getD 1 0) = some pf →
      verifyM pairHashW commitHashW (buildMerkleM pairHashW [10, 20, 30]) pf
        ([10, 20, 30].getD 1 0) = true :=
  C2_mmr_roundtrip pairHashW commitHashW [10, 20, 30] 1 (by decide)

end ZeroXBridge
